/- Verification of the tiled-inference pipeline of the tree-crown detection
notebook (eds-book-gallery/15d986da-2d7c-44fb-af71-700494485def).

The notebook calls `preprocess.compute_windows` and `model.predict_tile`
from the external DeepForest library; the window planner, the NMS merger
and the result aggregator are therefore modelled from the specification
(spec.md sections 3-5), while `cv2_imshow` and the per-window prediction
loop expression are embedded directly from the notebook source. -/
import Mathlib

namespace TCD

/-- Modelled from the spec: the error kinds of section 7 (the pipeline code
itself lives in the external DeepForest library, not in the repository). -/
inductive PipelineError where
  | InvalidConfiguration
  | OutOfBoundsWindow
  | DetectorFailure
  | EmptyImage
  deriving DecidableEq, Repr

/-- Modelled from the spec: the `Window` record of section 3
(`{index, x_offset, y_offset, width, height}`, all integers). -/
structure Window where
  index : ℕ
  x_offset : ℕ
  y_offset : ℕ
  width : ℕ
  height : ℕ
  deriving DecidableEq, Repr

/-- Modelled from the spec: the `Detection` record of section 3
(`{xmin, ymin, xmax, ymax, score, label}`) together with the
`window_index` and tile-truncated flag used by the Merger (section 4.5). -/
structure Detection where
  xmin : ℚ
  ymin : ℚ
  xmax : ℚ
  ymax : ℚ
  score : ℚ
  label : ℕ
  window_index : ℕ
  truncated : Bool
  deriving DecidableEq, Repr

/-- Modelled from the spec: stride `s = round(patch_size * (1 - patch_overlap))`
(section 4.1; the computation is inside DeepForest's `compute_windows`). -/
def stride (patch_size : ℕ) (patch_overlap : ℚ) : ℤ :=
  round ((patch_size : ℚ) * (1 - patch_overlap))

/-- Modelled from the spec: the valid-configuration predicate of section 4.1,
`patch_size > 0`, `0 ≤ patch_overlap < 1` and stride at least 1. -/
def validConfig (patch_size : ℕ) (patch_overlap : ℚ) : Prop :=
  patch_size ≠ 0 ∧ 0 ≤ patch_overlap ∧ patch_overlap < 1 ∧
    1 ≤ stride patch_size patch_overlap

instance validConfigDec (p : ℕ) (ov : ℚ) : Decidable (validConfig p ov) := by
  unfold validConfig; infer_instance

/-- Modelled from the spec: the number of unclipped grid offsets along one
axis, i.e. the grid points `k*s` whose full patch fits inside the extent. -/
def numFull (W patch s : ℕ) : ℕ :=
  if patch ≤ W then (W - patch) / s + 1 else 0

/-- Modelled from the spec: window offsets along one axis (section 4.1) —
a regular grid with origin 0 and step `s` while the window fits, the final
window clipped to end exactly at `W` with offset `max(0, W - patch)`
(natural subtraction gives exactly `max(0, W - patch)`). -/
def axisOffsets (W patch s : ℕ) : List ℕ :=
  let n := numFull W patch s
  let grid := (List.range n).map (fun k => k * s)
  if n ≠ 0 ∧ (n - 1) * s + patch = W then grid else grid ++ [W - patch]

/-- Modelled from the spec: build the window at offset pair `xy` with the
clip rule of section 4.1 (width/height never larger than `patch`, ending
inside the image). -/
def mkWindow (W H patch : ℕ) (i : ℕ) (xy : ℕ × ℕ) : Window :=
  ⟨i, xy.1, xy.2, min patch (W - xy.1), min patch (H - xy.2)⟩

/-- Modelled from the spec: row-major offset pairs, y outer, x inner
(section 4.1). -/
def gridPairs (W H patch s : ℕ) : List (ℕ × ℕ) :=
  (axisOffsets H patch s).flatMap (fun y => (axisOffsets W patch s).map (fun x => (x, y)))

/-- Modelled from the spec: the ordered window list with indices assigned in
row-major order. -/
def planWindows (W H patch s : ℕ) : List Window :=
  (gridPairs W H patch s).enum.map (fun p => mkWindow W H patch p.1 p.2)

/-- Modelled from the spec: the WindowPlanner contract of section 4.1
(DeepForest's `preprocess.compute_windows` is not part of the repository).
Validation happens before any window is produced. -/
def plan (W H : ℕ) (patch_size : ℕ) (patch_overlap : ℚ) :
    Except PipelineError (List Window) :=
  if validConfig patch_size patch_overlap then
    .ok (planWindows W H patch_size (stride patch_size patch_overlap).toNat)
  else .error .InvalidConfiguration

/-- Area of a detection's axis-aligned rectangle. -/
def area (d : Detection) : ℚ := (d.xmax - d.xmin) * (d.ymax - d.ymin)

/-- Length of the overlap of the intervals `[a1,a2]` and `[b1,b2]`. -/
def interLen (a1 a2 b1 b2 : ℚ) : ℚ := max 0 (min a2 b2 - max a1 b1)

/-- Intersection area of two detections' rectangles. -/
def interArea (d1 d2 : Detection) : ℚ :=
  interLen d1.xmin d1.xmax d2.xmin d2.xmax * interLen d1.ymin d1.ymax d2.ymin d2.ymax

/-- Modelled from the spec: IoU as intersection-area over union-area of the
axis-aligned rectangles; zero-overlap pairs yield 0 (section 4.5 step 4). -/
def iou (d1 d2 : Detection) : ℚ :=
  let i := interArea d1 d2
  let u := area d1 + area d2 - i
  if u = 0 then 0 else i / u

/-- Modelled from the spec: the Merger's sort key of section 4.5 step 2 —
tile-truncated flag ascending, score descending, area descending,
window index ascending — encoded as a lexicographic tuple (descending
components negated). -/
def sortKey (d : Detection) : Bool ×ₗ ℚ ×ₗ ℚ ×ₗ ℕ :=
  toLex (d.truncated, toLex (-d.score, toLex (-(area d), d.window_index)))

/-- The Merger's sort relation: candidates ordered by `sortKey`. -/
def detLE (a b : Detection) : Prop := sortKey a ≤ sortKey b

instance detLEDec : DecidableRel detLE := fun a b => by
  unfold detLE; infer_instance

instance detLETotal : IsTotal Detection detLE :=
  ⟨fun a b => le_total (sortKey a) (sortKey b)⟩

instance detLETrans : IsTrans Detection detLE :=
  ⟨fun _ _ _ h1 h2 => le_trans h1 h2⟩

/-- Modelled from the spec: one step of the greedy NMS scan of section 4.5
step 3 — keep the candidate exactly when its IoU against every
already-kept detection is at most the threshold. -/
def keepStep (t : ℚ) (kept : List Detection) (d : Detection) : List Detection :=
  if ∀ k ∈ kept, iou d k ≤ t then kept ++ [d] else kept

/-- Modelled from the spec: the greedy NMS scan over a sorted candidate
list (section 4.5 step 3). -/
def nms (t : ℚ) (l : List Detection) : List Detection := l.foldl (keepStep t) []

/-- Modelled from the spec: the labels present in a detection list, in a
canonical (ascending) order, used to partition the Merger's input
(section 4.5 step 1). -/
def labelsOf (l : List Detection) : List ℕ :=
  ((l.map Detection.label).toFinset).sort (· ≤ ·)

/-- Modelled from the spec: the kept list for one label group — sort by the
Merger key, then greedy NMS (section 4.5 steps 2-3). -/
def mergeGroup (t : ℚ) (l : List Detection) : List Detection :=
  nms t (List.insertionSort detLE l)

/-- Modelled from the spec: the Merger of section 4.5 (inside DeepForest's
`predict_tile`, not in the repository) — partition by label, sort each
group by the key, greedy NMS, concatenate the groups' kept lists. -/
def merge (l : List Detection) (t : ℚ) : List Detection :=
  (labelsOf l).flatMap (fun lab => mergeGroup t (l.filter (fun d => d.label == lab)))

/-- The ResultAggregator's sort relation of section 4.6: `ymin` ascending
then `xmin` ascending. -/
def aggLE (a b : Detection) : Prop :=
  toLex (a.ymin, a.xmin) ≤ toLex (b.ymin, b.xmin)

instance aggLEDec : DecidableRel aggLE := fun a b => by
  unfold aggLE; infer_instance

instance aggLETotal : IsTotal Detection aggLE :=
  ⟨fun a b => le_total (toLex (a.ymin, a.xmin)) (toLex (b.ymin, b.xmin))⟩

instance aggLETrans : IsTrans Detection aggLE :=
  ⟨fun _ _ _ h1 h2 => le_trans h1 h2⟩

/-- Modelled from the spec: the ResultAggregator of section 4.6 — the final
detection table sorted by `ymin` then `xmin`. -/
def aggregate (l : List Detection) : List Detection := List.insertionSort aggLE l

/-- Modelled from the spec: the CoordinateMapper of section 4.4 — add the
window offsets to the box corners and record the producing window's
index (no boundary margin is configured, so the truncated flag is kept). -/
def toGlobal (w : Window) (d : Detection) : Detection :=
  { d with
    xmin := d.xmin + (w.x_offset : ℚ)
    xmax := d.xmax + (w.x_offset : ℚ)
    ymin := d.ymin + (w.y_offset : ℚ)
    ymax := d.ymax + (w.y_offset : ℚ)
    window_index := w.index }

/-- Modelled from the spec: one per-window unit of work — run the external
detector on the window's tile and map its detections to global
coordinates (sections 4.2-4.4; the detector is a black-box collaborator,
modelled as a function from the window to its tile-local detections). -/
def runWindow (det : Window → List Detection) (w : Window) : List Detection :=
  (det w).map (toGlobal w)

/-- Modelled from the spec: the whole tile-wise pipeline of section 2 —
plan the windows, pool every window's globally-mapped detections,
merge, aggregate. -/
def pipeline (det : Window → List Detection) (W H patch : ℕ) (ov t : ℚ) :
    Except PipelineError (List Detection) :=
  (plan W H patch ov).map fun ws => aggregate (merge (ws.flatMap (runWindow det)) t)

/-- The single window covering the whole image. -/
def fullWindow (W H : ℕ) : Window := ⟨0, 0, 0, W, H⟩

/-- Modelled from the spec: the degenerate single-window case of the
tile-wise pipeline — one detector invocation on the whole image, its
output merged and aggregated (section 4.1 and section 8). -/
def fullImageMode (det : Window → List Detection) (W H : ℕ) (t : ℚ) :
    List Detection :=
  aggregate (merge (runWindow det (fullWindow W H)) t)

/-- Two windows' pixel-rectangle interiors intersect. -/
def interiorsOverlap (w1 w2 : Window) : Prop :=
  max w1.x_offset w2.x_offset < min (w1.x_offset + w1.width) (w2.x_offset + w2.width) ∧
    max w1.y_offset w2.y_offset < min (w1.y_offset + w1.height) (w2.y_offset + w2.height)

instance interiorsOverlapDec (w1 w2 : Window) : Decidable (interiorsOverlap w1 w2) := by
  unfold interiorsOverlap; infer_instance

/-- Strict row-major order on windows: y outer, x inner. -/
def rowMajorBefore (w1 w2 : Window) : Prop :=
  w1.y_offset < w2.y_offset ∨ (w1.y_offset = w2.y_offset ∧ w1.x_offset < w2.x_offset)

/-- A pixel (px, py) lies inside a window's rectangle. -/
def pixelInWindow (w : Window) (px py : ℕ) : Prop :=
  w.x_offset ≤ px ∧ px < w.x_offset + w.width ∧
    w.y_offset ≤ py ∧ py < w.y_offset + w.height

instance pixelInWindowDec (w : Window) (px py : ℕ) : Decidable (pixelInWindow w px py) := by
  unfold pixelInWindow; infer_instance

/-! Embeddings of code that is present in the notebook source itself. -/

/-- The notebook's `crop[..., ::-1]` on a 3-dimensional array: reverse the
last (channel) axis. -/
def revChannels {α : Type} (a : List (List (List α))) : List (List (List α)) :=
  a.map (fun row => row.map List.reverse)

/-- The notebook's `np.flip(·, 2)` on a 3-dimensional array: axis 2 is the
last axis, so this also reverses the channel axis. -/
def npFlip2 {α : Type} (a : List (List (List α))) : List (List (List α)) :=
  a.map (fun row => row.map List.reverse)

/-- The expression `np.flip(crop[..., ::-1], 2)` passed to
`model.predict_image` inside the notebook's per-window loop. -/
def predictTileInput {α : Type} (crop : List (List (List α))) : List (List (List α)) :=
  npFlip2 (revChannels crop)

/-- The notebook's `a.clip(0, 255).astype('uint8')` on one pixel value:
clip into [0, 255], then cast (truncate) to an unsigned 8-bit value. -/
def toUint8 (x : ℚ) : ℕ := (max 0 (min 255 x)).floor.toNat

/-- Clip-and-cast applied to a 2-dimensional (grayscale) array. -/
def clipCast2 (m : List (List ℚ)) : List (List ℕ) :=
  m.map (List.map toUint8)

/-- Clip-and-cast applied to a 3-dimensional array. -/
def clipCast3 (m : List (List (List ℚ))) : List (List (List ℕ)) :=
  m.map (fun row => row.map (List.map toUint8))

/-- `cv2.cvtColor(·, cv2.COLOR_BGR2RGB)` on one pixel: swap the first and
third channels of a 3-channel pixel. -/
def bgr2rgb (c : List ℕ) : List ℕ :=
  match c with
  | [b, g, r] => [r, g, b]
  | other => other

/-- `cv2.cvtColor(·, cv2.COLOR_BGRA2RGBA)` on one pixel: swap the first and
third channels of a 4-channel pixel, keeping alpha in place. -/
def bgra2rgba (c : List ℕ) : List ℕ :=
  match c with
  | [b, g, r, al] => [r, g, b, al]
  | other => other

/-- A numpy array argument of `cv2_imshow`: 2-dimensional (grayscale) or
3-dimensional (channelled). -/
inductive NpArray where
  | d2 (m : List (List ℚ))
  | d3 (m : List (List (List ℚ)))

/-- The result of `cv2_imshow`'s preprocessing, with uint8 pixel values. -/
inductive NpArrayU8 where
  | d2 (m : List (List ℕ))
  | d3 (m : List (List (List ℕ)))
  deriving DecidableEq

/-- `a.shape[2]` of a 3-dimensional array: the channel count. -/
def channelCount (m : List (List (List ℕ))) : ℕ :=
  ((m.headD []).headD []).length

/-- The notebook's `cv2_imshow` preprocessing (cell defining it): clip to
[0, 255] and cast to uint8 on a fresh array, then convert BGRA to RGBA
when the array has 3 dimensions and 4 channels, BGR to RGB when it has 3
dimensions otherwise, and leave a 2-dimensional array without any channel
conversion. -/
def cv2_imshow (a : NpArray) : NpArrayU8 :=
  match a with
  | .d2 m => .d2 (clipCast2 m)
  | .d3 m =>
    let m' := clipCast3 m
    if channelCount m' = 4 then .d3 (m'.map (fun row => row.map bgra2rgba))
    else .d3 (m'.map (fun row => row.map bgr2rgb))

instance exceptDecEq {ε α : Type} [DecidableEq ε] [DecidableEq α] :
    DecidableEq (Except ε α) := fun a b =>
  match a, b with
  | .ok x, .ok y =>
    if h : x = y then .isTrue (by rw [h]) else .isFalse (by intro hc; cases hc; exact h rfl)
  | .error x, .error y =>
    if h : x = y then .isTrue (by rw [h]) else .isFalse (by intro hc; cases hc; exact h rfl)
  | .ok _, .error _ => .isFalse (by intro hc; cases hc)
  | .error _, .ok _ => .isFalse (by intro hc; cases hc)

/-! ## Theorems -/

/-- With zero overlap the rounded stride equals the patch size. -/
theorem stride_zero_overlap (p : ℕ) : stride p 0 = (p : ℤ) := by
  unfold stride
  norm_num

/-- The zero-overlap configuration is valid for a positive patch size. -/
theorem validConfig_zero_overlap (p : ℕ) (hp : p ≠ 0) : validConfig p 0 := by
  refine ⟨hp, by norm_num, by norm_num, ?_⟩
  rw [stride_zero_overlap]
  omega

/-- C5. For a 1000x1000 image with `patch_size = 400` and `patch_overlap = 0`
the window planner produces exactly 9 windows (3 per axis), with offsets
`{0, 400, 600}` along each axis — the last offset being
`max(0, 1000 - 400) = 600` per the clip rule — every window 400x400 and
inside the image bounds, in row-major order. -/
theorem c5_scenario_a :
    plan 1000 1000 400 0 = .ok
      [⟨0, 0, 0, 400, 400⟩, ⟨1, 400, 0, 400, 400⟩, ⟨2, 600, 0, 400, 400⟩,
       ⟨3, 0, 400, 400, 400⟩, ⟨4, 400, 400, 400, 400⟩, ⟨5, 600, 400, 400, 400⟩,
       ⟨6, 0, 600, 400, 400⟩, ⟨7, 400, 600, 400, 400⟩, ⟨8, 600, 600, 400, 400⟩] := by
  unfold plan
  rw [if_pos (validConfig_zero_overlap 400 (by norm_num)), stride_zero_overlap]
  decide

/-- C7. The window planner fails with `InvalidConfiguration` exactly when the
configuration is invalid — `patch_size = 0` (the spec's `patch_size <= 0`
for natural-number sizes), `patch_overlap` outside `[0, 1)`, or rounded
stride below 1 — and succeeds on every other input. Validation happens
before any window is computed. -/
theorem c7_invalid_configuration (W H patch : ℕ) (ov : ℚ) :
    (plan W H patch ov = .error .InvalidConfiguration ↔
      (patch = 0 ∨ ov < 0 ∨ 1 ≤ ov ∨ stride patch ov < 1)) ∧
    (¬(patch = 0 ∨ ov < 0 ∨ 1 ≤ ov ∨ stride patch ov < 1) →
      ∃ ws, plan W H patch ov = .ok ws) := by
  have hiff : validConfig patch ov ↔
      ¬(patch = 0 ∨ ov < 0 ∨ 1 ≤ ov ∨ stride patch ov < 1) := by
    unfold validConfig
    push_neg
    simp only [not_lt, not_le]
  constructor
  · by_cases hv : validConfig patch ov
    · have hplan : plan W H patch ov =
          .ok (planWindows W H patch (stride patch ov).toNat) := by
        unfold plan
        rw [if_pos hv]
      rw [hplan]
      constructor
      · intro h
        exact Except.noConfusion h
      · intro h
        exact absurd h (hiff.mp hv)
    · have hplan : plan W H patch ov = .error .InvalidConfiguration := by
        unfold plan
        rw [if_neg hv]
      rw [hplan]
      constructor
      · intro _
        by_contra hc
        exact hv (hiff.mpr hc)
      · intro _
        rfl
  · intro h
    refine ⟨planWindows W H patch (stride patch ov).toNat, ?_⟩
    unfold plan
    rw [if_pos (hiff.mpr h)]

/-- C9. The expression `np.flip(crop[..., ::-1], 2)` in the notebook's
per-window prediction loop is the identity on every 3-dimensional pixel
array: both operations reverse the channel (last) axis, so reversing it
twice hands the detector the crop in its original channel order,
despite the comment "predict in bgr channel order". -/
theorem c9_flip_flip_identity {α : Type} (crop : List (List (List α))) :
    predictTileInput crop = crop := by
  unfold predictTileInput npFlip2 revChannels
  simp [List.map_map, Function.comp_def]

/-- Helper: `getD` through `List.map`. -/
theorem getD_map {α β : Type} (f : α → β) (l : List α) (i : ℕ) (da : α) :
    (l.map f).getD i (f da) = f (l.getD i da) := by
  simp only [List.getD_eq_getElem?_getD, List.getElem?_map]
  cases l[i]? <;> rfl

/-- C10. `cv2_imshow` first clips every pixel into [0, 255] and casts to
uint8 (a fresh array in the pure embedding — the input is never mutated),
then applies a colour conversion only to a 3-dimensional input: BGRA to
RGBA at 4 channels, BGR to RGB otherwise; a 2-dimensional (grayscale)
input gets no channel swap — its pixel at any position (i, j) is exactly
the clipped-and-cast input pixel at (i, j) — and every produced value
fits in uint8. -/
theorem c10_cv2_imshow_shape :
    (∀ m : List (List ℚ), cv2_imshow (.d2 m) = .d2 (clipCast2 m)) ∧
    (∀ (m : List (List ℚ)) (i j : ℕ),
      ((clipCast2 m).getD i []).getD j 0 = toUint8 ((m.getD i []).getD j 0)) ∧
    (∀ m : List (List (List ℚ)), channelCount (clipCast3 m) = 4 →
      cv2_imshow (.d3 m) = .d3 ((clipCast3 m).map (fun row => row.map bgra2rgba))) ∧
    (∀ m : List (List (List ℚ)), channelCount (clipCast3 m) ≠ 4 →
      cv2_imshow (.d3 m) = .d3 ((clipCast3 m).map (fun row => row.map bgr2rgb))) ∧
    (∀ x : ℚ, toUint8 x ≤ 255) := by
  refine ⟨fun m => rfl, ?_, ?_, ?_, ?_⟩
  · intro m i j
    have h1 : (clipCast2 m).getD i [] = List.map toUint8 (m.getD i []) := by
      have := getD_map (List.map toUint8) m i []
      simpa [clipCast2] using this
    rw [h1]
    have h2 : toUint8 0 = 0 := by decide
    calc (List.map toUint8 (m.getD i [])).getD j 0
        = (List.map toUint8 (m.getD i [])).getD j (toUint8 0) := by rw [h2]
      _ = toUint8 ((m.getD i []).getD j 0) := getD_map toUint8 (m.getD i []) j 0
  · intro m h
    unfold cv2_imshow
    simp only [if_pos h]
  · intro m h
    unfold cv2_imshow
    simp only [if_neg h]
  · intro x
    have h1 : max 0 (min 255 x) ≤ (255 : ℚ) :=
      max_le (by norm_num) (min_le_left _ _)
    have h3 : ⌊max 0 (min 255 x)⌋ ≤ ⌊(255 : ℚ)⌋ := Int.floor_le_floor h1
    have h4 : ⌊(255 : ℚ)⌋ = 255 := by
      rw [show ((255 : ℚ)) = ((255 : ℤ) : ℚ) by norm_num, Int.floor_intCast]
    rw [h4] at h3
    unfold toUint8
    have h5 : (max 0 (min 255 x)).floor = ⌊max 0 (min 255 x)⌋ := rfl
    rw [h5]
    omega

/-- C10 witness: concrete evaluations — a grayscale array is clipped and
cast with no channel swap, a 4-channel array gets BGRA→RGBA, a 3-channel
array gets BGR→RGB. -/
theorem c10_witness :
    cv2_imshow (.d2 [[300, -7]]) = .d2 [[255, 0]] ∧
    cv2_imshow (.d3 [[[1, 2, 3, 4]]]) = .d3 [[[3, 2, 1, 4]]] ∧
    cv2_imshow (.d3 [[[1, 2, 3]]]) = .d3 [[[3, 2, 1]]] := by
  refine ⟨?_, ?_, ?_⟩
  · exact (c10_cv2_imshow_shape.1 [[300, -7]]).trans (by decide)
  · exact (c10_cv2_imshow_shape.2.2.1 [[[1, 2, 3, 4]]] (by decide)).trans (by decide)
  · exact (c10_cv2_imshow_shape.2.2.2.1 [[[1, 2, 3]]] (by decide)).trans (by decide)

/-! ## Merger lemmas -/

/-- Intersection area is symmetric. -/
theorem interArea_comm (d1 d2 : Detection) : interArea d1 d2 = interArea d2 d1 := by
  unfold interArea interLen
  rw [min_comm d1.xmax d2.xmax, max_comm d1.xmin d2.xmin,
    min_comm d1.ymax d2.ymax, max_comm d1.ymin d2.ymin]

/-- IoU is symmetric. -/
theorem iou_comm (d1 d2 : Detection) : iou d1 d2 = iou d2 d1 := by
  unfold iou
  rw [interArea_comm, add_comm (area d1)]

/-- The NMS scan keeps the pairwise IoU bound invariant. -/
theorem nms_go_pairwise (t : ℚ) (l : List Detection) :
    ∀ acc : List Detection, acc.Pairwise (fun a b => iou a b ≤ t) →
      (l.foldl (keepStep t) acc).Pairwise (fun a b => iou a b ≤ t) := by
  induction l with
  | nil => intro acc hacc; exact hacc
  | cons d rest ih =>
    intro acc hacc
    rw [List.foldl_cons]
    by_cases h : ∀ k ∈ acc, iou d k ≤ t
    · have hk : keepStep t acc d = acc ++ [d] := by unfold keepStep; rw [if_pos h]
      rw [hk]
      refine ih (acc ++ [d]) ?_
      rw [List.pairwise_append]
      refine ⟨hacc, List.pairwise_singleton _ _, ?_⟩
      intro a ha b hb
      have hb' : b = d := List.mem_singleton.mp hb
      subst hb'
      rw [iou_comm]
      exact h a ha
    · have hk : keepStep t acc d = acc := by unfold keepStep; rw [if_neg h]
      rw [hk]
      exact ih acc hacc

/-- The NMS scan appends a sublist of the processed list to the accumulator. -/
theorem nms_go_shape (t : ℚ) (l : List Detection) :
    ∀ acc : List Detection, ∃ l', List.Sublist l' l ∧ l.foldl (keepStep t) acc = acc ++ l' := by
  induction l with
  | nil => intro acc; exact ⟨[], List.Sublist.refl _, by simp⟩
  | cons d rest ih =>
    intro acc
    rw [List.foldl_cons]
    by_cases h : ∀ k ∈ acc, iou d k ≤ t
    · have hk : keepStep t acc d = acc ++ [d] := by unfold keepStep; rw [if_pos h]
      rw [hk]
      obtain ⟨l', hsub, heq⟩ := ih (acc ++ [d])
      exact ⟨d :: l', hsub.cons₂ d, by rw [heq, List.append_assoc]; rfl⟩
    · have hk : keepStep t acc d = acc := by unfold keepStep; rw [if_neg h]
      rw [hk]
      obtain ⟨l', hsub, heq⟩ := ih acc
      exact ⟨l', hsub.cons d, heq⟩

/-- The NMS output is a sublist of its input. -/
theorem nms_sublist (t : ℚ) (l : List Detection) : List.Sublist (nms t l) l := by
  obtain ⟨l', hsub, heq⟩ := nms_go_shape t l []
  unfold nms
  rw [heq, List.nil_append]
  exact hsub

/-- Members of the NMS output are members of its input. -/
theorem mem_of_mem_nms {t : ℚ} {l : List Detection} {a : Detection}
    (h : a ∈ nms t l) : a ∈ l := (nms_sublist t l).subset h

/-- Every pair of detections kept by the NMS scan has IoU at most the
threshold. -/
theorem nms_pairwise (t : ℚ) (l : List Detection) :
    (nms t l).Pairwise (fun a b => iou a b ≤ t) :=
  nms_go_pairwise t l [] List.Pairwise.nil

/-- If the whole candidate list already satisfies the pairwise IoU bound
(and likewise against the accumulator), the NMS scan keeps everything. -/
theorem nms_go_keep_all (t : ℚ) (l : List Detection) :
    ∀ acc : List Detection, l.Pairwise (fun a b => iou b a ≤ t) →
      (∀ d ∈ l, ∀ k ∈ acc, iou d k ≤ t) → l.foldl (keepStep t) acc = acc ++ l := by
  induction l with
  | nil => intro acc _ _; simp
  | cons d rest ih =>
    intro acc hl hacc
    rw [List.foldl_cons]
    have h : ∀ k ∈ acc, iou d k ≤ t := fun k hk => hacc d (List.mem_cons_self d rest) k hk
    have hk : keepStep t acc d = acc ++ [d] := by unfold keepStep; rw [if_pos h]
    rw [hk]
    obtain ⟨hd, hrest⟩ := List.pairwise_cons.mp hl
    have := ih (acc ++ [d]) hrest ?_
    · rw [this, List.append_assoc]
      rfl
    · intro d' hd' k hk'
      rcases List.mem_append.mp hk' with hka | hkd
      · exact hacc d' (List.mem_cons_of_mem d hd') k hka
      · have : k = d := List.mem_singleton.mp hkd
        subst this
        exact hd d' hd'

/-- NMS is the identity on a list that already satisfies the pairwise IoU
bound. -/
theorem nms_of_pairwise (t : ℚ) (l : List Detection)
    (hl : l.Pairwise (fun a b => iou b a ≤ t)) : nms t l = l := by
  unfold nms
  rw [nms_go_keep_all t l [] hl (by intro d _ k hk; cases hk), List.nil_append]

/-- NMS keeps at least one detection of a nonempty input. -/
theorem nms_ne_nil (t : ℚ) (l : List Detection) (hl : l ≠ []) : nms t l ≠ [] := by
  cases l with
  | nil => exact absurd rfl hl
  | cons d rest =>
    unfold nms
    rw [List.foldl_cons]
    have hk : keepStep t [] d = [d] := by
      unfold keepStep
      rw [if_pos (by intro k hk; cases hk)]
      rfl
    rw [hk]
    obtain ⟨l', _, heq⟩ := nms_go_shape t rest [d]
    rw [heq]
    simp

/-- Members of a merge group are members of its input list. -/
theorem mem_of_mem_mergeGroup {t : ℚ} {l : List Detection} {a : Detection}
    (h : a ∈ mergeGroup t l) : a ∈ l :=
  (List.perm_insertionSort detLE l).mem_iff.mp (mem_of_mem_nms h)

/-- A merge group of a nonempty list is nonempty. -/
theorem mergeGroup_ne_nil (t : ℚ) (l : List Detection) (hl : l ≠ []) :
    mergeGroup t l ≠ [] := by
  unfold mergeGroup
  refine nms_ne_nil t _ ?_
  intro hc
  have hp := List.perm_insertionSort detLE l
  rw [hc] at hp
  exact hl hp.nil_eq.symm

/-- Members of a merge group carry the label that was filtered for. -/
theorem label_of_mem_mergeGroup {t : ℚ} {l : List Detection} {lab : ℕ} {a : Detection}
    (h : a ∈ mergeGroup t (l.filter (fun d => d.label == lab))) : a.label = lab := by
  have := mem_of_mem_mergeGroup h
  have := List.of_mem_filter this
  exact eq_of_beq this

/-- Members of the merged output are members of the pooled input. -/
theorem mem_of_mem_merge {l : List Detection} {t : ℚ} {a : Detection}
    (h : a ∈ merge l t) : a ∈ l := by
  obtain ⟨lab, _, hg⟩ := List.mem_flatMap.mp h
  exact List.mem_of_mem_filter (mem_of_mem_mergeGroup hg)

/-- C2. After the merge runs with any threshold `t` in [0, 1], every pair of
distinct kept detections sharing a label has IoU at most `t` (IoU being
intersection area over union area, 0 for non-overlapping pairs). -/
theorem c2_post_merge_iou_bound (D : List Detection) (t : ℚ)
    (h0 : 0 ≤ t) (h1 : t ≤ 1) :
    ∀ a ∈ merge D t, ∀ b ∈ merge D t, a ≠ b → a.label = b.label → iou a b ≤ t := by
  intro a ha b hb hab hlab
  obtain ⟨la, hla, hag⟩ := List.mem_flatMap.mp ha
  obtain ⟨lb, hlb, hbg⟩ := List.mem_flatMap.mp hb
  have ha' : a.label = la := label_of_mem_mergeGroup hag
  have hb' : b.label = lb := label_of_mem_mergeGroup hbg
  have hll : la = lb := by rw [← ha', ← hb', hlab]
  subst hll
  have hpw := nms_pairwise t (List.insertionSort detLE (D.filter (fun d => d.label == la)))
  have hsym : Symmetric (fun a b : Detection => iou a b ≤ t) := by
    intro x y hxy
    rw [iou_comm]
    exact hxy
  exact hpw.forall hsym hag hbg hab

/-- A merge group is sorted by the Merger's key. -/
theorem mergeGroup_sorted (t : ℚ) (l : List Detection) :
    (mergeGroup t l).Pairwise detLE := by
  unfold mergeGroup
  exact List.Pairwise.sublist (nms_sublist t _) (List.sorted_insertionSort detLE l)

/-- Pointwise-equal functions give equal flatMaps. -/
theorem flatMap_congr {α β : Type} {l : List α} {f g : α → List β}
    (h : ∀ a ∈ l, f a = g a) : l.flatMap f = l.flatMap g := by
  induction l with
  | nil => rfl
  | cons a rest ih =>
    rw [List.flatMap_cons, List.flatMap_cons, h a (List.mem_cons_self a rest),
      ih (fun a' ha' => h a' (List.mem_cons_of_mem a ha'))]

/-- Merging is idempotent on every merge group: sorting its (already
sorted) kept list and re-running NMS changes nothing. -/
theorem mergeGroup_idem (t : ℚ) (l : List Detection) :
    mergeGroup t (mergeGroup t l) = mergeGroup t l := by
  have hsorted : (mergeGroup t l).Pairwise detLE := mergeGroup_sorted t l
  have h1 : List.insertionSort detLE (mergeGroup t l) = mergeGroup t l :=
    List.Sorted.insertionSort_eq hsorted
  show nms t (List.insertionSort detLE (mergeGroup t l)) = mergeGroup t l
  rw [h1]
  refine nms_of_pairwise t _ ?_
  have hpw : (mergeGroup t l).Pairwise (fun a b => iou a b ≤ t) :=
    nms_pairwise t (List.insertionSort detLE l)
  exact hpw.imp (fun {a b} h => by rw [iou_comm]; exact h)

/-- The label list of any detection list has no duplicates. -/
theorem labelsOf_nodup (l : List Detection) : (labelsOf l).Nodup :=
  Finset.sort_nodup _ _

/-- The merged output mentions exactly the labels of the pooled input. -/
theorem labelsOf_merge (D : List Detection) (t : ℚ) :
    labelsOf (merge D t) = labelsOf D := by
  unfold labelsOf
  have hset : ((merge D t).map Detection.label).toFinset =
      (D.map Detection.label).toFinset := by
    apply Finset.ext
    intro lab
    simp only [List.mem_toFinset, List.mem_map]
    constructor
    · rintro ⟨d, hd, rfl⟩
      exact ⟨d, mem_of_mem_merge hd, rfl⟩
    · rintro ⟨d, hd, rfl⟩
      have hsort : d.label ∈ labelsOf D := by
        unfold labelsOf
        rw [Finset.mem_sort]
        simp only [List.mem_toFinset, List.mem_map]
        exact ⟨d, hd, rfl⟩
      have hfil : D.filter (fun d' => d'.label == d.label) ≠ [] := by
        intro hc
        have hmem : d ∈ D.filter (fun d' => d'.label == d.label) :=
          List.mem_filter.mpr ⟨hd, by simp⟩
        rw [hc] at hmem
        cases hmem
      obtain ⟨d', hd'⟩ := List.exists_mem_of_ne_nil _ (mergeGroup_ne_nil t _ hfil)
      exact ⟨d', List.mem_flatMap.mpr ⟨d.label, hsort, hd'⟩, label_of_mem_mergeGroup hd'⟩
  rw [hset]

/-- Filtering a label-partitioned flatMap for one of its labels recovers
exactly that label's block. -/
theorem flatMap_filter_label (ls : List ℕ) (f : ℕ → List Detection)
    (hnd : ls.Nodup) (hf : ∀ lab ∈ ls, ∀ d ∈ f lab, d.label = lab)
    (lab : ℕ) (hm : lab ∈ ls) :
    (ls.flatMap f).filter (fun d => d.label == lab) = f lab := by
  induction ls with
  | nil => cases hm
  | cons l0 rest ih =>
    rw [List.flatMap_cons, List.filter_append]
    rcases List.mem_cons.mp hm with rfl | hrest
    · have h1 : (f lab).filter (fun d => d.label == lab) = f lab :=
        List.filter_eq_self.mpr
          (fun d hd => by simp [hf lab (List.mem_cons_self _ _) d hd])
      have h2 : (rest.flatMap f).filter (fun d => d.label == lab) = [] := by
        apply List.filter_eq_nil_iff.mpr
        intro d hd
        obtain ⟨lab', hlab', hd'⟩ := List.mem_flatMap.mp hd
        have hdl : d.label = lab' := hf lab' (List.mem_cons_of_mem _ hlab') d hd'
        have hne : lab' ≠ lab := fun hc =>
          (List.nodup_cons.mp hnd).1 (hc ▸ hlab')
        simp [hdl, hne]
      rw [h1, h2, List.append_nil]
    · have hl0 : l0 ≠ lab := fun hc => (List.nodup_cons.mp hnd).1 (hc ▸ hrest)
      have h1 : (f l0).filter (fun d => d.label == lab) = [] := by
        apply List.filter_eq_nil_iff.mpr
        intro d hd
        have hdl : d.label = l0 := hf l0 (List.mem_cons_self _ _) d hd
        simp [hdl, hl0]
      rw [h1, List.nil_append]
      exact ih (List.nodup_cons.mp hnd).2
        (fun lab' h' => hf lab' (List.mem_cons_of_mem _ h')) hrest

/-- Filtering the merged output for a present label recovers that label's
kept list. -/
theorem merge_filter (D : List Detection) (t : ℚ) (lab : ℕ)
    (hm : lab ∈ labelsOf D) :
    (merge D t).filter (fun d => d.label == lab) =
      mergeGroup t (D.filter (fun d => d.label == lab)) := by
  unfold merge
  exact flatMap_filter_label _ _ (labelsOf_nodup D)
    (fun _ _ d hd => label_of_mem_mergeGroup hd) lab hm

/-- C3. The merge is idempotent: re-running it on its own output with the
same threshold `t` in [0, 1] returns that output unchanged. -/
theorem c3_merge_idempotent (D : List Detection) (t : ℚ)
    (h0 : 0 ≤ t) (h1 : t ≤ 1) :
    merge (merge D t) t = merge D t := by
  calc merge (merge D t) t
      = (labelsOf (merge D t)).flatMap
          (fun lab => mergeGroup t ((merge D t).filter (fun d => d.label == lab))) := rfl
    _ = (labelsOf D).flatMap
          (fun lab => mergeGroup t ((merge D t).filter (fun d => d.label == lab))) := by
          rw [labelsOf_merge]
    _ = (labelsOf D).flatMap
          (fun lab => mergeGroup t (D.filter (fun d => d.label == lab))) :=
          flatMap_congr (fun lab hm => by rw [merge_filter D t lab hm, mergeGroup_idem])
    _ = merge D t := rfl

/-- C3 witness: idempotence evaluated at a concrete detection set and
threshold 1/2. -/
theorem c3_witness :
    merge (merge [(⟨0, 0, 1, 1, 1, 0, 0, false⟩ : Detection)] (1/2)) (1/2) =
    merge [(⟨0, 0, 1, 1, 1, 0, 0, false⟩ : Detection)] (1/2) :=
  c3_merge_idempotent _ _ (by norm_num) (by norm_num)

/-- Two sorted lists that are permutations of each other coincide, as long
as the order is antisymmetric on their members. -/
theorem eq_of_perm_of_sorted_of_antisymmOn {α : Type} {r : α → α → Prop} :
    ∀ {l₁ l₂ : List α}, l₁.Perm l₂ → l₁.Pairwise r → l₂.Pairwise r →
      (∀ a ∈ l₁, ∀ b ∈ l₁, r a b → r b a → a = b) → l₁ = l₂ := by
  intro l₁
  induction l₁ with
  | nil =>
    intro l₂ hp _ _ _
    exact hp.nil_eq
  | cons a t₁ ih =>
    intro l₂ hp hs₁ hs₂ hanti
    cases l₂ with
    | nil => exact absurd hp.eq_nil (List.cons_ne_nil a t₁)
    | cons b t₂ =>
      have hab : a = b := by
        by_cases h : a = b
        · exact h
        · have ha2 : a ∈ b :: t₂ := hp.mem_iff.mp (List.mem_cons_self a t₁)
          have hb1 : b ∈ a :: t₁ := hp.mem_iff.mpr (List.mem_cons_self b t₂)
          have hat2 : a ∈ t₂ := by
            rcases List.mem_cons.mp ha2 with h' | h'
            · exact absurd h' h
            · exact h'
          have hbt1 : b ∈ t₁ := by
            rcases List.mem_cons.mp hb1 with h' | h'
            · exact absurd h'.symm h
            · exact h'
          have hrab : r a b := (List.pairwise_cons.mp hs₁).1 b hbt1
          have hrba : r b a := (List.pairwise_cons.mp hs₂).1 a hat2
          exact hanti a (List.mem_cons_self a t₁) b hb1 hrab hrba
      subst hab
      have hp' : t₁.Perm t₂ := hp.cons_inv
      have ht := ih hp' (List.pairwise_cons.mp hs₁).2 (List.pairwise_cons.mp hs₂).2
        (fun x hx y hy => hanti x (List.mem_cons_of_mem a hx) y (List.mem_cons_of_mem a hy))
      rw [ht]

/-- The Merger's sort relation is antisymmetric up to key equality. -/
theorem sortKey_eq_of_detLE (a b : Detection) (h1 : detLE a b) (h2 : detLE b a) :
    sortKey a = sortKey b :=
  le_antisymm h1 h2

/-- The merged output is insensitive to the order of the pooled detections
whenever no two distinct pooled detections share the full sort key. -/
theorem merge_eq_of_perm (l₁ l₂ : List Detection) (t : ℚ) (hp : l₁.Perm l₂)
    (hinj : ∀ a ∈ l₁, ∀ b ∈ l₁, sortKey a = sortKey b → a = b) :
    merge l₁ t = merge l₂ t := by
  have hlabs : labelsOf l₁ = labelsOf l₂ := by
    unfold labelsOf
    have hm : (l₁.map Detection.label).Perm (l₂.map Detection.label) :=
      hp.map Detection.label
    have hset : (l₁.map Detection.label).toFinset = (l₂.map Detection.label).toFinset := by
      apply Finset.ext
      intro lab
      simp only [List.mem_toFinset]
      exact hm.mem_iff
    rw [hset]
  have hsorted : ∀ lab : ℕ,
      List.insertionSort detLE (l₁.filter (fun d => d.label == lab)) =
        List.insertionSort detLE (l₂.filter (fun d => d.label == lab)) := by
    intro lab
    have hmem : ∀ a, a ∈ List.insertionSort detLE (l₁.filter (fun d => d.label == lab)) →
        a ∈ l₁ := by
      intro a ha
      exact List.mem_of_mem_filter
        ((List.perm_insertionSort detLE _).mem_iff.mp ha)
    refine eq_of_perm_of_sorted_of_antisymmOn
      ((List.perm_insertionSort detLE _).trans
        ((hp.filter _).trans (List.perm_insertionSort detLE _).symm))
      (List.sorted_insertionSort detLE _)
      (List.sorted_insertionSort detLE _) ?_
    intro a ha b hb hab hba
    exact hinj a (hmem a ha) b (hmem b hb) (sortKey_eq_of_detLE a b hab hba)
  unfold merge
  rw [hlabs]
  exact flatMap_congr (fun lab _ => by unfold mergeGroup; rw [hsorted lab])

/-- C8 (amended). Two merge inputs that are permutations of each other give
identical final (aggregated) output, provided no two distinct pooled
detections tie on the complete sort key `(truncated, score, area,
window_index)` — in particular, re-orderings across different windows
never change the result. -/
theorem c8_order_independence (l₁ l₂ : List Detection) (t : ℚ) (hp : l₁.Perm l₂)
    (hinj : ∀ a ∈ l₁, ∀ b ∈ l₁, sortKey a = sortKey b → a = b) :
    aggregate (merge l₁ t) = aggregate (merge l₂ t) := by
  rw [merge_eq_of_perm l₁ l₂ t hp hinj]

/-- C8 witness: a two-element pool with distinct keys, delivered in both
orders, gives the same aggregated output. -/
theorem c8_witness :
    aggregate (merge [(⟨0, 0, 1, 1, 1, 0, 0, false⟩ : Detection),
        ⟨0, 0, 1, 1, 0, 0, 0, false⟩] 0) =
    aggregate (merge [(⟨0, 0, 1, 1, 0, 0, 0, false⟩ : Detection),
        ⟨0, 0, 1, 1, 1, 0, 0, false⟩] 0) := by
  refine c8_order_independence _ _ 0 (List.Perm.swap _ _ _) ?_
  intro a ha b hb hk
  rcases List.mem_cons.mp ha with rfl | ha' <;>
    rcases List.mem_cons.mp hb with rfl | hb'
  · rfl
  · rw [List.mem_singleton.mp hb'] at hk ⊢
    unfold sortKey area at hk
    simp only [toLex_inj, Prod.mk.injEq] at hk
    exfalso
    have := hk.2.1
    norm_num at this
  · rw [List.mem_singleton.mp ha'] at hk ⊢
    unfold sortKey area at hk
    simp only [toLex_inj, Prod.mk.injEq] at hk
    exfalso
    have := hk.2.1
    norm_num at this
  · rw [List.mem_singleton.mp ha', List.mem_singleton.mp hb']

/-- Merging a two-element pool whose second element loses the tie-break and
overlaps the first beyond the threshold keeps only the first element. -/
theorem merge_pair (x y : Detection) (t : ℚ) (hlab : y.label = x.label)
    (hle : detLE x y) (hiou : ¬ iou y x ≤ t) : merge [x, y] t = [x] := by
  have hlabs : labelsOf [x, y] = [x.label] := by
    unfold labelsOf
    have h1 : ([x, y].map Detection.label) = [x.label, x.label] := by simp [hlab]
    rw [h1]
    have h2 : ([x.label, x.label] : List ℕ).toFinset = {x.label} := by simp
    rw [h2]
    exact Finset.sort_singleton _ _
  unfold merge
  rw [hlabs, List.flatMap_cons, List.flatMap_nil, List.append_nil]
  have hfil : [x, y].filter (fun d => d.label == x.label) = [x, y] := by
    simp [List.filter, hlab]
  rw [hfil]
  unfold mergeGroup
  have hsort : List.insertionSort detLE [x, y] = [x, y] := by
    refine List.Sorted.insertionSort_eq ?_
    show List.Pairwise detLE [x, y]
    rw [List.pairwise_cons]
    refine ⟨fun b hb => ?_, List.pairwise_singleton _ _⟩
    rw [List.mem_singleton.mp hb]
    exact hle
  rw [hsort]
  unfold nms
  rw [List.foldl_cons, List.foldl_cons, List.foldl_nil]
  have h1 : keepStep t [] x = [x] := by
    unfold keepStep
    rw [if_pos (by intro k hk; cases hk)]
    rfl
  rw [h1]
  unfold keepStep
  rw [if_neg (fun hall => hiou (hall x (List.mem_singleton_self x)))]

/-- Merging a two-element pool whose elements stay below the IoU threshold
keeps both in sorted order. -/
theorem merge_pair_keep (x y : Detection) (t : ℚ) (hlab : y.label = x.label)
    (hle : detLE x y) (hiou : iou y x ≤ t) : merge [x, y] t = [x, y] := by
  have hlabs : labelsOf [x, y] = [x.label] := by
    unfold labelsOf
    have h1 : ([x, y].map Detection.label) = [x.label, x.label] := by simp [hlab]
    rw [h1]
    have h2 : ([x.label, x.label] : List ℕ).toFinset = {x.label} := by simp
    rw [h2]
    exact Finset.sort_singleton _ _
  unfold merge
  rw [hlabs, List.flatMap_cons, List.flatMap_nil, List.append_nil]
  have hfil : [x, y].filter (fun d => d.label == x.label) = [x, y] := by
    simp [List.filter, hlab]
  rw [hfil]
  unfold mergeGroup
  have hsort : List.insertionSort detLE [x, y] = [x, y] := by
    refine List.Sorted.insertionSort_eq ?_
    show List.Pairwise detLE [x, y]
    rw [List.pairwise_cons]
    refine ⟨fun b hb => ?_, List.pairwise_singleton _ _⟩
    rw [List.mem_singleton.mp hb]
    exact hle
  rw [hsort]
  unfold nms
  rw [List.foldl_cons, List.foldl_cons, List.foldl_nil]
  have h1 : keepStep t [] x = [x] := by
    unfold keepStep
    rw [if_pos (by intro k hk; cases hk)]
    rfl
  rw [h1]
  unfold keepStep
  rw [if_pos (by
    intro k hk
    rw [List.mem_singleton.mp hk]
    exact hiou)]
  rfl

/-- C2 witness: a concrete two-element pool both of whose detections are
kept at threshold 1/2, instantiating the post-merge IoU bound at that
kept pair. -/
theorem c2_witness :
    iou (⟨0, 0, 1, 1, 1, 0, 0, false⟩ : Detection)
      (⟨5, 5, 6, 6, 1, 0, 0, false⟩ : Detection) ≤ 1/2 := by
  have hkey : sortKey (⟨0, 0, 1, 1, 1, 0, 0, false⟩ : Detection) =
      sortKey (⟨5, 5, 6, 6, 1, 0, 0, false⟩ : Detection) := by
    unfold sortKey area
    simp only [toLex_inj, Prod.mk.injEq]
    norm_num
  have hiou : iou (⟨5, 5, 6, 6, 1, 0, 0, false⟩ : Detection)
      (⟨0, 0, 1, 1, 1, 0, 0, false⟩ : Detection) ≤ 1/2 := by
    unfold iou interArea interLen area
    norm_num [min_def, max_def]
  have hm : merge [(⟨0, 0, 1, 1, 1, 0, 0, false⟩ : Detection),
      ⟨5, 5, 6, 6, 1, 0, 0, false⟩] (1/2) =
      [(⟨0, 0, 1, 1, 1, 0, 0, false⟩ : Detection), ⟨5, 5, 6, 6, 1, 0, 0, false⟩] :=
    merge_pair_keep _ _ _ rfl (le_of_eq hkey) hiou
  have hne : (⟨0, 0, 1, 1, 1, 0, 0, false⟩ : Detection) ≠
      ⟨5, 5, 6, 6, 1, 0, 0, false⟩ := by
    intro h
    simp only [Detection.mk.injEq] at h
    norm_num at h
  refine c2_post_merge_iou_bound
    [(⟨0, 0, 1, 1, 1, 0, 0, false⟩ : Detection), ⟨5, 5, 6, 6, 1, 0, 0, false⟩]
    (1/2) (by norm_num) (by norm_num) _ ?_ _ ?_ hne rfl
  · rw [hm]
    exact List.mem_cons_self _ _
  · rw [hm]
    exact List.mem_cons_of_mem _ (List.mem_singleton_self _)

/-- C8 counterexample. Two same-window detections with identical sort keys
(equal truncated flag, score, area and window index) but different boxes:
delivering the pool in the two possible orders changes which one the
merge keeps, so the final outputs differ even though the pools are
permutations of each other. -/
theorem c8_counterexample :
    ([(⟨0, 0, 2, 2, 1, 0, 0, false⟩ : Detection),
        ⟨1, 0, 3, 2, 1, 0, 0, false⟩] : List Detection).Perm
      [⟨1, 0, 3, 2, 1, 0, 0, false⟩, ⟨0, 0, 2, 2, 1, 0, 0, false⟩] ∧
    aggregate (merge [(⟨0, 0, 2, 2, 1, 0, 0, false⟩ : Detection),
        ⟨1, 0, 3, 2, 1, 0, 0, false⟩] 0) ≠
      aggregate (merge [(⟨1, 0, 3, 2, 1, 0, 0, false⟩ : Detection),
        ⟨0, 0, 2, 2, 1, 0, 0, false⟩] 0) := by
  have hkey : sortKey (⟨0, 0, 2, 2, 1, 0, 0, false⟩ : Detection) =
      sortKey (⟨1, 0, 3, 2, 1, 0, 0, false⟩ : Detection) := by
    unfold sortKey area
    simp only [toLex_inj, Prod.mk.injEq]
    norm_num
  have hiou1 : ¬ iou (⟨1, 0, 3, 2, 1, 0, 0, false⟩ : Detection)
      (⟨0, 0, 2, 2, 1, 0, 0, false⟩ : Detection) ≤ 0 := by
    unfold iou interArea interLen area
    norm_num [min_def, max_def]
  have hiou2 : ¬ iou (⟨0, 0, 2, 2, 1, 0, 0, false⟩ : Detection)
      (⟨1, 0, 3, 2, 1, 0, 0, false⟩ : Detection) ≤ 0 := by
    unfold iou interArea interLen area
    norm_num [min_def, max_def]
  refine ⟨List.Perm.swap _ _ _, ?_⟩
  rw [merge_pair (⟨0, 0, 2, 2, 1, 0, 0, false⟩ : Detection)
      (⟨1, 0, 3, 2, 1, 0, 0, false⟩ : Detection) 0 rfl (le_of_eq hkey) hiou1,
    merge_pair (⟨1, 0, 3, 2, 1, 0, 0, false⟩ : Detection)
      (⟨0, 0, 2, 2, 1, 0, 0, false⟩ : Detection) 0 rfl (le_of_eq hkey.symm) hiou2]
  intro h
  have h2 : (⟨0, 0, 2, 2, 1, 0, 0, false⟩ : Detection) =
      ⟨1, 0, 3, 2, 1, 0, 0, false⟩ := by
    have h3 : ([(⟨0, 0, 2, 2, 1, 0, 0, false⟩ : Detection)] : List Detection) =
        [⟨1, 0, 3, 2, 1, 0, 0, false⟩] := h
    exact (List.cons.injEq _ _ _ _ ▸ h3 : _ ∧ _).1
  simp only [Detection.mk.injEq] at h2
  norm_num at h2

/-- When the patch covers the whole axis there is exactly one offset, 0. -/
theorem axisOffsets_of_le (W patch s : ℕ) (hW : 0 < W) (h : W ≤ patch) :
    axisOffsets W patch s = [0] := by
  unfold axisOffsets numFull
  by_cases hp : patch ≤ W
  · have hpW : W = patch := le_antisymm h hp
    subst hpW
    simp [List.range_succ]
  · have h0 : W - patch = 0 := Nat.sub_eq_zero_of_le h
    simp [hp, h0]

/-- C4 (amended). With `patch_size ≥ W` and `patch_size ≥ H` the planner
produces exactly one window covering the whole image, and the tile-wise
pipeline's final output equals the degenerate single-window mode: one
detector invocation on the whole image followed by the same merge and
aggregation stages. (Equality with the raw single-pass detector output
does not hold in general — see the counterexample.) -/
theorem c4_degenerate_single_window (det : Window → List Detection)
    (W H patch : ℕ) (ov t : ℚ) (hW : 0 < W) (hH : 0 < H)
    (hpW : W ≤ patch) (hpH : H ≤ patch) (hv : validConfig patch ov) :
    plan W H patch ov = .ok [fullWindow W H] ∧
    pipeline det W H patch ov t = .ok (fullImageMode det W H t) := by
  have hplan : plan W H patch ov = .ok [fullWindow W H] := by
    unfold plan
    rw [if_pos hv]
    congr 1
    unfold planWindows gridPairs
    rw [axisOffsets_of_le W patch _ hW hpW, axisOffsets_of_le H patch _ hH hpH]
    show [mkWindow W H patch 0 (0, 0)] = [fullWindow W H]
    unfold mkWindow fullWindow
    rw [Nat.sub_zero, Nat.sub_zero, Nat.min_eq_right hpW, Nat.min_eq_right hpH]
  refine ⟨hplan, ?_⟩
  unfold pipeline
  rw [hplan]
  show Except.ok (aggregate (merge ([fullWindow W H].flatMap (runWindow det)) t)) = _
  rw [show ([fullWindow W H].flatMap (runWindow det)) = runWindow det (fullWindow W H) by
    rw [List.flatMap_cons, List.flatMap_nil, List.append_nil]]
  rfl

/-- C4 witness: a 2x2 image with patch size 3, the empty detector. -/
theorem c4_witness :
    plan 2 2 3 0 = .ok [fullWindow 2 2] ∧
    pipeline (fun _ => []) 2 2 3 0 0 = .ok (fullImageMode (fun _ => []) 2 2 0) :=
  c4_degenerate_single_window (fun _ => []) 2 2 3 0 0 (by norm_num) (by norm_num)
    (by norm_num) (by norm_num) (validConfig_zero_overlap 3 (by norm_num))

/-- C4 counterexample. A detector whose full-image output contains two
same-label boxes with IoU above the threshold: the tile-wise pipeline
(one whole-image window, then NMS merge) suppresses one of them, so its
final output differs from the raw output of running the detector once
directly on the whole image. -/
theorem c4_counterexample :
    pipeline (fun _ => [(⟨0, 0, 2, 2, 1, 0, 0, false⟩ : Detection),
        ⟨0, 0, 2, 1, 1, 0, 0, false⟩]) 2 2 3 0 0 ≠
      .ok [(⟨0, 0, 2, 2, 1, 0, 0, false⟩ : Detection),
        ⟨0, 0, 2, 1, 1, 0, 0, false⟩] := by
  have hplan : plan 2 2 3 0 = .ok [⟨0, 0, 0, 2, 2⟩] := by
    unfold plan
    rw [if_pos (validConfig_zero_overlap 3 (by norm_num)), stride_zero_overlap]
    decide
  have hrw : runWindow (fun _ => [(⟨0, 0, 2, 2, 1, 0, 0, false⟩ : Detection),
      ⟨0, 0, 2, 1, 1, 0, 0, false⟩]) (⟨0, 0, 0, 2, 2⟩ : Window) =
      [(⟨0, 0, 2, 2, 1, 0, 0, false⟩ : Detection), ⟨0, 0, 2, 1, 1, 0, 0, false⟩] := by
    unfold runWindow toGlobal
    simp
  have hle : detLE (⟨0, 0, 2, 2, 1, 0, 0, false⟩ : Detection)
      (⟨0, 0, 2, 1, 1, 0, 0, false⟩ : Detection) := by
    unfold detLE sortKey area
    rw [Prod.Lex.le_iff]
    refine Or.inr ⟨rfl, ?_⟩
    rw [Prod.Lex.le_iff]
    refine Or.inr ⟨rfl, ?_⟩
    rw [Prod.Lex.le_iff]
    refine Or.inl ?_
    norm_num
  have hiou : ¬ iou (⟨0, 0, 2, 1, 1, 0, 0, false⟩ : Detection)
      (⟨0, 0, 2, 2, 1, 0, 0, false⟩ : Detection) ≤ 0 := by
    unfold iou interArea interLen area
    norm_num [min_def, max_def]
  unfold pipeline
  rw [hplan]
  show Except.ok (aggregate (merge
      ([(⟨0, 0, 0, 2, 2⟩ : Window)].flatMap (runWindow (fun _ =>
        [(⟨0, 0, 2, 2, 1, 0, 0, false⟩ : Detection),
          ⟨0, 0, 2, 1, 1, 0, 0, false⟩]))) 0)) ≠ _
  rw [List.flatMap_cons, List.flatMap_nil, List.append_nil, hrw,
    merge_pair (⟨0, 0, 2, 2, 1, 0, 0, false⟩ : Detection)
      (⟨0, 0, 2, 1, 1, 0, 0, false⟩ : Detection) 0 rfl hle hiou]
  intro h
  have h2 := Except.ok.inj h
  have h3 : (1 : ℕ) = 2 := by
    have := congrArg List.length h2
    simpa [aggregate, List.insertionSort, List.orderedInsert] using this
  norm_num at h3

/-! ## Window planner lemmas -/

/-- Rounding on ℚ is monotone. -/
theorem round_le_round {x y : ℚ} (h : x ≤ y) : round x ≤ round y := by
  rw [round_eq, round_eq]
  exact Int.floor_le_floor (by linarith)

/-- For a non-negative overlap the stride never exceeds the patch size. -/
theorem stride_le_patch (p : ℕ) (ov : ℚ) (h0 : 0 ≤ ov) : (stride p ov).toNat ≤ p := by
  have h1 : (p : ℚ) * (1 - ov) ≤ (p : ℚ) := by
    nlinarith [Nat.cast_nonneg (α := ℚ) p]
  have h2 : stride p ov ≤ (p : ℤ) := by
    unfold stride
    calc round ((p : ℚ) * (1 - ov)) ≤ round ((p : ℚ)) := round_le_round h1
      _ = (p : ℤ) := round_natCast p
  omega

/-- Unfolded form of `axisOffsets`. -/
theorem axisOffsets_eq (W patch s : ℕ) :
    axisOffsets W patch s =
      if numFull W patch s ≠ 0 ∧ (numFull W patch s - 1) * s + patch = W then
        (List.range (numFull W patch s)).map (fun k => k * s)
      else (List.range (numFull W patch s)).map (fun k => k * s) ++ [W - patch] := rfl

/-- Every grid offset stays inside the image extent. -/
theorem grid_le {W patch s o : ℕ}
    (ho : o ∈ (List.range (numFull W patch s)).map (fun k => k * s)) : o ≤ W := by
  obtain ⟨k, hk, rfl⟩ := List.mem_map.mp ho
  have hk' : k < numFull W patch s := List.mem_range.mp hk
  have hple : patch ≤ W := by
    by_contra hc
    unfold numFull at hk'
    rw [if_neg hc] at hk'
    omega
  have hkd : k ≤ (W - patch) / s := by
    unfold numFull at hk'
    rw [if_pos hple] at hk'
    omega
  have h2 : k * s ≤ ((W - patch) / s) * s := Nat.mul_le_mul_right s hkd
  have h3 : ((W - patch) / s) * s ≤ W - patch := Nat.div_mul_le_self _ _
  omega

/-- Every planned offset stays inside the image extent. -/
theorem le_of_mem_axisOffsets {W patch s o : ℕ}
    (ho : o ∈ axisOffsets W patch s) : o ≤ W := by
  rw [axisOffsets_eq] at ho
  split_ifs at ho with hc
  · exact grid_le ho
  · rcases List.mem_append.mp ho with h | h
    · exact grid_le h
    · rw [List.mem_singleton.mp h]
      omega

/-- Every planned window along one axis ends inside the image extent. -/
theorem mem_axisOffsets_bound {W patch s o : ℕ}
    (ho : o ∈ axisOffsets W patch s) : o + min patch (W - o) ≤ W := by
  have h1 : o ≤ W := le_of_mem_axisOffsets ho
  have h2 : min patch (W - o) ≤ W - o := min_le_right _ _
  omega

/-- Grid offsets are planned offsets. -/
theorem grid_subset_axisOffsets (W patch s : ℕ) {o : ℕ}
    (ho : o ∈ (List.range (numFull W patch s)).map (fun k => k * s)) :
    o ∈ axisOffsets W patch s := by
  rw [axisOffsets_eq]
  split_ifs
  · exact ho
  · exact List.mem_append.mpr (Or.inl ho)

/-- The clipped final offset `W - patch` is always planned when the patch
fits the extent. -/
theorem last_mem_axisOffsets (W patch s : ℕ) (hple : patch ≤ W) :
    W - patch ∈ axisOffsets W patch s := by
  rw [axisOffsets_eq]
  have hd : numFull W patch s = (W - patch) / s + 1 := by
    unfold numFull
    rw [if_pos hple]
  split_ifs with hc
  · obtain ⟨_, hc2⟩ := hc
    rw [hd, Nat.add_sub_cancel] at hc2
    refine List.mem_map.mpr ⟨(W - patch) / s, List.mem_range.mpr (by rw [hd]; omega), ?_⟩
    omega
  · exact List.mem_append.mpr (Or.inr (List.mem_singleton_self _))

/-- Axis coverage: the planned offsets' windows cover exactly `[0, W)`. -/
theorem axis_cover (W patch s : ℕ) (hpatch : 0 < patch) (hs : 0 < s)
    (hsp : s ≤ patch) (px : ℕ) :
    (∃ o ∈ axisOffsets W patch s, o ≤ px ∧ px < o + min patch (W - o)) ↔ px < W := by
  constructor
  · rintro ⟨o, ho, _, hlt⟩
    exact lt_of_lt_of_le hlt (mem_axisOffsets_bound ho)
  · intro hpx
    by_cases hple : patch ≤ W
    · have hd : numFull W patch s = (W - patch) / s + 1 := by
        unfold numFull
        rw [if_pos hple]
      by_cases hk : px / s ≤ (W - patch) / s
      · refine ⟨px / s * s, ?_, Nat.div_mul_le_self _ _, ?_⟩
        · apply grid_subset_axisOffsets
          refine List.mem_map.mpr ⟨px / s, List.mem_range.mpr ?_, rfl⟩
          rw [hd]
          omega
        · have hmul : px / s * s ≤ ((W - patch) / s) * s := Nat.mul_le_mul_right s hk
          have hWm : ((W - patch) / s) * s ≤ W - patch := Nat.div_mul_le_self _ _
          have hob : px / s * s + patch ≤ W := by omega
          have hmin : min patch (W - px / s * s) = patch := by
            apply min_eq_left
            omega
          rw [hmin]
          have hdam : s * (px / s) + px % s = px := Nat.div_add_mod _ _
          have hmod : px % s < s := Nat.mod_lt _ hs
          have hcomm : px / s * s = s * (px / s) := Nat.mul_comm _ _
          omega
      · have hdam : s * (px / s) + px % s = px := Nat.div_add_mod _ _
        have hWam : s * ((W - patch) / s) + (W - patch) % s = W - patch :=
          Nat.div_add_mod _ _
        have hWmod : (W - patch) % s < s := Nat.mod_lt _ hs
        have hdm : px / s * s ≤ px := Nat.div_mul_le_self _ _
        have hmul2 : ((W - patch) / s + 1) * s ≤ px / s * s :=
          Nat.mul_le_mul_right s (by omega)
        have hexp : ((W - patch) / s + 1) * s = (W - patch) / s * s + s :=
          Nat.succ_mul _ _
        have hcomm : (W - patch) / s * s = s * ((W - patch) / s) := Nat.mul_comm _ _
        have hlast : W - patch ≤ px := by omega
        refine ⟨W - patch, last_mem_axisOffsets W patch s hple, hlast, ?_⟩
        have hWp : W - (W - patch) = patch := by omega
        rw [hWp, min_self]
        omega
    · have hWle : W ≤ patch := le_of_not_le hple
      rw [axisOffsets_of_le W patch s (by omega) hWle]
      refine ⟨0, List.mem_singleton_self _, Nat.zero_le _, ?_⟩
      rw [Nat.sub_zero, Nat.min_eq_right hWle]
      omega

/-- Planned offsets along one axis are strictly increasing. -/
theorem axisOffsets_pairwise_lt (W patch s : ℕ) (hs : 0 < s) :
    (axisOffsets W patch s).Pairwise (· < ·) := by
  have hgrid : ((List.range (numFull W patch s)).map (fun k => k * s)).Pairwise (· < ·) :=
    (List.pairwise_lt_range _).map _ (fun a b hab => (mul_lt_mul_right hs).mpr hab)
  rw [axisOffsets_eq]
  split_ifs with hc
  · exact hgrid
  · rw [List.pairwise_append]
    refine ⟨hgrid, List.pairwise_singleton _ _, ?_⟩
    intro a ha b hb
    rw [List.mem_singleton.mp hb]
    obtain ⟨k, hk, rfl⟩ := List.mem_map.mp ha
    have hk' : k < numFull W patch s := List.mem_range.mp hk
    by_cases hple : patch ≤ W
    · have hd : numFull W patch s = (W - patch) / s + 1 := by
        unfold numFull
        rw [if_pos hple]
      have hn0 : numFull W patch s ≠ 0 := by
        rw [hd]
        omega
      have hne' : (numFull W patch s - 1) * s + patch ≠ W := fun hE => hc ⟨hn0, hE⟩
      rw [hd, Nat.add_sub_cancel] at hne'
      have hWm : ((W - patch) / s) * s ≤ W - patch := Nat.div_mul_le_self _ _
      have hkm : k * s ≤ ((W - patch) / s) * s := by
        refine Nat.mul_le_mul_right s ?_
        rw [hd] at hk'
        omega
      omega
    · have hn : numFull W patch s = 0 := by
        unfold numFull
        rw [if_neg hple]
      rw [hn] at hk'
      omega

/-- Every member of a list appears in its enumeration. -/
theorem mem_enumFrom_of_mem {α : Type} {l : List α} {a : α} (h : a ∈ l) :
    ∀ n : ℕ, ∃ i, (i, a) ∈ l.enumFrom n := by
  induction l with
  | nil => cases h
  | cons b t ih =>
    intro n
    rcases List.mem_cons.mp h with rfl | h'
    · refine ⟨n, ?_⟩
      rw [List.enumFrom_cons]
      exact List.mem_cons_self _ _
    · obtain ⟨i, hi⟩ := ih h' (n + 1)
      refine ⟨i, ?_⟩
      rw [List.enumFrom_cons]
      exact List.mem_cons_of_mem _ hi

/-- The payload of an enumeration member is a member of the list. -/
theorem snd_mem_of_mem_enumFrom {α : Type} {l : List α} {p : ℕ × α} :
    ∀ {n : ℕ}, p ∈ l.enumFrom n → p.2 ∈ l := by
  induction l with
  | nil =>
    intro n h
    rw [List.enumFrom_nil] at h
    cases h
  | cons b t ih =>
    intro n h
    rw [List.enumFrom_cons] at h
    rcases List.mem_cons.mp h with rfl | h'
    · exact List.mem_cons_self _ _
    · exact List.mem_cons_of_mem _ (ih h')

/-- The enumeration used to index windows. -/
theorem enum_eq_enumFrom {α : Type} (l : List α) : l.enum = l.enumFrom 0 := rfl

/-- Members of the pair grid have both components among the axis offsets. -/
theorem mem_gridPairs {W H patch s : ℕ} {xy : ℕ × ℕ}
    (h : xy ∈ gridPairs W H patch s) :
    xy.1 ∈ axisOffsets W patch s ∧ xy.2 ∈ axisOffsets H patch s := by
  unfold gridPairs at h
  obtain ⟨y, hy, hxy⟩ := List.mem_flatMap.mp h
  obtain ⟨x, hx, rfl⟩ := List.mem_map.mp hxy
  exact ⟨hx, hy⟩

/-- The window ordering is row-major: y outer, x inner, both strictly
increasing. -/
theorem gridPairs_pairwise (W H patch s : ℕ) (hs : 0 < s) :
    (gridPairs W H patch s).Pairwise
      (fun p q => p.2 < q.2 ∨ (p.2 = q.2 ∧ p.1 < q.1)) := by
  unfold gridPairs
  rw [List.pairwise_flatMap]
  constructor
  · intro y _
    exact (axisOffsets_pairwise_lt W patch s hs).map _
      (fun a b hab => Or.inr ⟨rfl, hab⟩)
  · refine (axisOffsets_pairwise_lt H patch s hs).imp ?_
    intro y1 y2 h12 p hp q hq
    obtain ⟨x1, _, rfl⟩ := List.mem_map.mp hp
    obtain ⟨x2, _, rfl⟩ := List.mem_map.mp hq
    exact Or.inl h12

/-- Planned windows are listed in strict row-major order. -/
theorem planWindows_pairwise_rowmajor (W H patch s : ℕ) (hs : 0 < s) :
    (planWindows W H patch s).Pairwise rowMajorBefore := by
  unfold planWindows
  have h := gridPairs_pairwise W H patch s hs
  have h2 : ((gridPairs W H patch s).enum).Pairwise
      (fun p q => p.2.2 < q.2.2 ∨ (p.2.2 = q.2.2 ∧ p.2.1 < q.2.1)) := by
    have h3 : ((gridPairs W H patch s).enum.map Prod.snd).Pairwise
        (fun p q => p.2 < q.2 ∨ (p.2 = q.2 ∧ p.1 < q.1)) := by
      rw [enum_eq_enumFrom, List.enumFrom_map_snd 0 _]
      exact h
    exact List.pairwise_map.mp h3
  exact h2.map _ (fun p q hpq => hpq)

/-- C1. For every nonempty image and valid configuration the planner
succeeds, the union of its windows' pixel rectangles is exactly
`[0, W) x [0, H)`, and the window list is in strict row-major order
(y outer, x inner); the planner is a pure function of
`(W, H, patch_size, patch_overlap)`, so re-running it with identical
inputs yields the identical list. -/
theorem c1_coverage (W H patch : ℕ) (ov : ℚ) (hW : 0 < W) (hH : 0 < H)
    (hv : validConfig patch ov) :
    ∃ ws, plan W H patch ov = .ok ws ∧
      (∀ px py : ℕ, (∃ w ∈ ws, pixelInWindow w px py) ↔ (px < W ∧ py < H)) ∧
      ws.Pairwise rowMajorBefore := by
  obtain ⟨hp0, hov0, hov1, hs1⟩ := hv
  have hs : 0 < (stride patch ov).toNat := by omega
  have hsp : (stride patch ov).toNat ≤ patch := stride_le_patch patch ov hov0
  have hppos : 0 < patch := Nat.pos_of_ne_zero hp0
  refine ⟨planWindows W H patch (stride patch ov).toNat, ?_, ?_,
    planWindows_pairwise_rowmajor W H patch _ hs⟩
  · unfold plan
    rw [if_pos ⟨hp0, hov0, hov1, hs1⟩]
  · intro px py
    constructor
    · rintro ⟨w, hw, hx1, hx2, hy1, hy2⟩
      obtain ⟨p, hp, rfl⟩ := List.mem_map.mp hw
      rw [enum_eq_enumFrom] at hp
      have hpg := mem_gridPairs (snd_mem_of_mem_enumFrom hp)
      constructor
      · exact lt_of_lt_of_le hx2 (mem_axisOffsets_bound hpg.1)
      · exact lt_of_lt_of_le hy2 (mem_axisOffsets_bound hpg.2)
    · rintro ⟨hpx, hpy⟩
      obtain ⟨ox, hox, hox1, hox2⟩ :=
        (axis_cover W patch _ hppos hs hsp px).mpr hpx
      obtain ⟨oy, hoy, hoy1, hoy2⟩ :=
        (axis_cover H patch _ hppos hs hsp py).mpr hpy
      have hpair : (ox, oy) ∈ gridPairs W H patch (stride patch ov).toNat := by
        unfold gridPairs
        exact List.mem_flatMap.mpr ⟨oy, hoy, List.mem_map.mpr ⟨ox, hox, rfl⟩⟩
      obtain ⟨i, hi⟩ := mem_enumFrom_of_mem hpair 0
      refine ⟨mkWindow W H patch i (ox, oy), ?_, hox1, hox2, hoy1, hoy2⟩
      unfold planWindows
      rw [enum_eq_enumFrom]
      exact List.mem_map.mpr ⟨(i, (ox, oy)), hi, rfl⟩

/-- C1 witness: a 5x5 image with patch 2 and zero overlap. -/
theorem c1_witness :
    ∃ ws, plan 5 5 2 0 = .ok ws ∧
      (∀ px py : ℕ, (∃ w ∈ ws, pixelInWindow w px py) ↔ (px < 5 ∧ py < 5)) ∧
      ws.Pairwise rowMajorBefore :=
  c1_coverage 5 5 2 0 (by norm_num) (by norm_num)
    (validConfig_zero_overlap 2 (by norm_num))

/-- Interior overlap of windows is symmetric. -/
theorem interiorsOverlap_comm (w1 w2 : Window) :
    interiorsOverlap w1 w2 ↔ interiorsOverlap w2 w1 := by
  unfold interiorsOverlap
  rw [max_comm w1.x_offset, min_comm (w1.x_offset + w1.width),
    max_comm w1.y_offset, min_comm (w1.y_offset + w1.height)]

/-- Consecutive multiples of the patch size are at least a patch apart. -/
theorem multiples_pairwise_sep (n patch : ℕ) :
    ((List.range n).map (fun k => k * patch)).Pairwise (fun a b => a + patch ≤ b) :=
  (List.pairwise_lt_range n).map _ (fun a b hab => by
    have h1 : (a + 1) * patch ≤ b * patch := Nat.mul_le_mul_right patch hab
    have h2 : (a + 1) * patch = a * patch + patch := Nat.succ_mul _ _
    omega)

/-- When the patch size divides the extent and the overlap is zero, the
axis offsets are exactly the multiples of the patch size below the
extent (no clipped final window is needed). -/
theorem axisOffsets_dvd (W patch : ℕ) (hW : 0 < W) (hp : patch ≠ 0)
    (hd : patch ∣ W) :
    axisOffsets W patch patch = (List.range (W / patch)).map (fun k => k * patch) := by
  obtain ⟨c, rfl⟩ := hd
  have hc : c ≠ 0 := by
    rintro rfl
    simp at hW
  have hple : patch ≤ patch * c :=
    Nat.le_mul_of_pos_right patch (Nat.pos_of_ne_zero hc)
  have hnum : numFull (patch * c) patch patch = c := by
    unfold numFull
    rw [if_pos hple]
    obtain ⟨k, rfl⟩ : ∃ k, c = k + 1 := ⟨c - 1, by omega⟩
    have h1 : patch * (k + 1) = patch * k + patch := Nat.mul_succ _ _
    have h2 : patch * (k + 1) - patch = patch * k := by omega
    rw [h2, Nat.mul_div_cancel_left k (Nat.pos_of_ne_zero hp)]
  have hcond : numFull (patch * c) patch patch ≠ 0 ∧
      (numFull (patch * c) patch patch - 1) * patch + patch = patch * c := by
    rw [hnum]
    refine ⟨hc, ?_⟩
    obtain ⟨k, rfl⟩ : ∃ k, c = k + 1 := ⟨c - 1, by omega⟩
    rw [Nat.add_sub_cancel]
    have h1 : (k + 1) * patch = k * patch + patch := Nat.succ_mul _ _
    have h2 : patch * (k + 1) = (k + 1) * patch := Nat.mul_comm _ _
    omega
  rw [axisOffsets_eq, if_pos hcond, hnum,
    Nat.mul_div_cancel_left c (Nat.pos_of_ne_zero hp)]

/-- C6 (amended). With `patch_overlap = 0` and a patch size dividing both
image extents, no two distinct planned windows have intersecting
interiors. (Without the divisibility condition the clipped final window
overlaps its neighbour — see the counterexample.) -/
theorem c6_disjoint_of_dvd (W H patch : ℕ) (hW : 0 < W) (hH : 0 < H)
    (hp : patch ≠ 0) (hdW : patch ∣ W) (hdH : patch ∣ H) :
    ∃ ws, plan W H patch 0 = .ok ws ∧
      ∀ w1 ∈ ws, ∀ w2 ∈ ws, w1 ≠ w2 → ¬ interiorsOverlap w1 w2 := by
  have hplan : plan W H patch 0 = .ok (planWindows W H patch patch) := by
    unfold plan
    rw [if_pos (validConfig_zero_overlap patch hp), stride_zero_overlap,
      Int.toNat_natCast]
  refine ⟨planWindows W H patch patch, hplan, ?_⟩
  have hpair : (gridPairs W H patch patch).Pairwise
      (fun p q => p.1 + patch ≤ q.1 ∨ p.2 + patch ≤ q.2) := by
    unfold gridPairs
    rw [axisOffsets_dvd W patch hW hp hdW, axisOffsets_dvd H patch hH hp hdH]
    rw [List.pairwise_flatMap]
    constructor
    · intro y _
      exact (multiples_pairwise_sep (W / patch) patch).map _
        (fun a b hab => Or.inl hab)
    · refine (multiples_pairwise_sep (H / patch) patch).imp ?_
      intro y1 y2 h12 p hp1 q hq1
      obtain ⟨x1, _, rfl⟩ := List.mem_map.mp hp1
      obtain ⟨x2, _, rfl⟩ := List.mem_map.mp hq1
      exact Or.inr h12
  have hwin : (planWindows W H patch patch).Pairwise
      (fun w1 w2 => ¬ interiorsOverlap w1 w2) := by
    unfold planWindows
    have h2 : ((gridPairs W H patch patch).enum).Pairwise
        (fun p q => p.2.1 + patch ≤ q.2.1 ∨ p.2.2 + patch ≤ q.2.2) := by
      have h3 : ((gridPairs W H patch patch).enum.map Prod.snd).Pairwise
          (fun p q => p.1 + patch ≤ q.1 ∨ p.2 + patch ≤ q.2) := by
        rw [enum_eq_enumFrom, List.enumFrom_map_snd 0 _]
        exact hpair
      exact List.pairwise_map.mp h3
    refine h2.map _ ?_
    intro p q hpq
    unfold interiorsOverlap mkWindow
    dsimp only
    rintro ⟨hx, hy⟩
    rcases hpq with h | h
    · have h1 : min (p.2.1 + min patch (W - p.2.1)) (q.2.1 + min patch (W - q.2.1)) ≤
          p.2.1 + min patch (W - p.2.1) := min_le_left _ _
      have h2 : min patch (W - p.2.1) ≤ patch := min_le_left _ _
      have h3 : q.2.1 ≤ max p.2.1 q.2.1 := le_max_right _ _
      omega
    · have h1 : min (p.2.2 + min patch (H - p.2.2)) (q.2.2 + min patch (H - q.2.2)) ≤
          p.2.2 + min patch (H - p.2.2) := min_le_left _ _
      have h2 : min patch (H - p.2.2) ≤ patch := min_le_left _ _
      have h3 : q.2.2 ≤ max p.2.2 q.2.2 := le_max_right _ _
      omega
  intro w1 h1 w2 h2 hne
  have hsymm : Symmetric (fun w1 w2 : Window => ¬ interiorsOverlap w1 w2) := by
    intro a b hab hba
    exact hab ((interiorsOverlap_comm b a).mp hba)
  exact hwin.forall hsymm h1 h2 hne

/-- C6 witness: an 800x800 image with patch 400, zero overlap — patch
divides both extents, all four windows pairwise interior-disjoint. -/
theorem c6_witness :
    ∃ ws, plan 800 800 400 0 = .ok ws ∧
      ∀ w1 ∈ ws, ∀ w2 ∈ ws, w1 ≠ w2 → ¬ interiorsOverlap w1 w2 :=
  c6_disjoint_of_dvd 800 800 400 (by norm_num) (by norm_num) (by norm_num)
    (by norm_num) (by norm_num)

/-- C6 counterexample. At a 1000x1000 image with patch 400 and overlap 0
(a valid configuration), the clipped final column starts at 600 while its
neighbour starts at 400 and is 400 wide, so two distinct windows have
intersecting interiors: zero overlap does not give interior-disjoint
windows in general. -/
theorem c6_counterexample :
    plan 1000 1000 400 0 = .ok (planWindows 1000 1000 400 400) ∧
    ∃ w1 ∈ planWindows 1000 1000 400 400, ∃ w2 ∈ planWindows 1000 1000 400 400,
      w1 ≠ w2 ∧ interiorsOverlap w1 w2 := by
  constructor
  · unfold plan
    rw [if_pos (validConfig_zero_overlap 400 (by norm_num)), stride_zero_overlap,
      Int.toNat_natCast]
  · decide

/-- C7 witness: a valid configuration (patch 7, overlap 0) is not rejected —
the planner succeeds on it. -/
theorem c7_witness : ∃ ws, plan 5 5 7 0 = .ok ws :=
  (c7_invalid_configuration 5 5 7 0).2 (by
    rw [stride_zero_overlap]
    norm_num)

end TCD
